import Mathlib

/-
Verification of the sjtu STLite containers: the mergeable priority queue
(skew heap with throwing comparator) from priority_queue.hpp and the
iterator arithmetic of vector.hpp, shallowly embedded in Lean.

The comparator of the C++ code may throw; it is modelled as a function
into Option Bool, where none models a thrown comparison. The private
heapnode tree is modelled by Tree, with nil for a null pointer. The
in-place recursive merge mutates child links before its recursive call,
so on a thrown comparison the trees observable from the two argument
pointers are generally not the input trees; mergeF returns, in its
thrown case, exactly those two observable trees (subtrees detached by
the mutation are dropped, matching the leak in the C++ code).
-/

namespace STLite

variable {α : Type}

/-- Heap tree of the priority queue: nil models a null heapnode pointer,
node holds val, ls, rs in this order. -/
inductive Tree (α : Type) : Type
| nil : Tree α
| node : α → Tree α → Tree α → Tree α
deriving DecidableEq

/-- Number of nodes of the tree observable from a root pointer. -/
def tsize : Tree α → Nat
| .nil => 0
| .node _ l r => 1 + tsize l + tsize r

/-- Value stored at the root node, none for the null tree. -/
def rootVal : Tree α → Option α
| .nil => none
| .node a _ _ => some a

/-- Multiset of the elements of a tree. -/
def elems : Tree α → Multiset α
| .nil => 0
| .node a l r => a ::ₘ (elems l + elems r)

/-- Result of the private heapnode merge: ok with the resulting tree, or
thrown with the two trees observable from the x and y argument pointers
after the exception escaped. -/
inductive MRes (α : Type) : Type
| ok : Tree α → MRes α
| thrown : Tree α → Tree α → MRes α
deriving DecidableEq

/-- Fueled embedding of priority_queue::merge(heapnode x, heapnode y).
The C++ body is: if either argument is null return the other; otherwise
if Compare()(x.val, y.val) swap x and y; then tmp = x.rs; x.rs = x.ls;
x.ls = merge(tmp, y); return x. A thrown comparison (cmp = none)
propagates; at that moment every enclosing frame has already executed
its x.rs = x.ls store but not its x.ls store, so from the x pointer one
observes node a xl xl, while tmp hangs detached (leaked). The fuel
argument only forces termination; mergeT below supplies enough fuel
that the fuel-exhaustion branch is never taken. -/
def mergeF (cmp : α → α → Option Bool) : Nat → Tree α → Tree α → MRes α
| _, .nil, y => .ok y
| _, .node a xl xr, .nil => .ok (.node a xl xr)
| 0, x, y => .thrown x y
| n+1, .node a xl xr, .node b yl yr =>
  match cmp a b with
  | none => .thrown (.node a xl xr) (.node b yl yr)
  | some true =>
    match mergeF cmp n yr (.node a xl xr) with
    | .ok z => .ok (.node b z yl)
    | .thrown _ t2 => .thrown t2 (.node b yl yl)
  | some false =>
    match mergeF cmp n xr (.node b yl yr) with
    | .ok z => .ok (.node a z xl)
    | .thrown _ t2 => .thrown (.node a xl xl) t2

/-- The private merge with sufficient fuel: every recursive call strictly
decreases the total node count, so tsize x + tsize y steps always
suffice and the fuel-exhaustion branch of mergeF is unreachable. -/
def mergeT (cmp : α → α → Option Bool) (x y : Tree α) : MRes α :=
  mergeF cmp (tsize x + tsize y) x y

/-- The priority_queue state: root_ pointer and size_ field. -/
structure PQ (α : Type) : Type where
  root : Tree α
  size : Nat
deriving DecidableEq

/-- Outcome of push: ok with the new state, or an escaped comparator
exception with the state observable afterwards. -/
inductive PushOut (α : Type) : Type
| ok : PQ α → PushOut α
| thrown : PQ α → PushOut α
deriving DecidableEq

/-- Embedding of priority_queue::push. The C++ body allocates newnode,
then root_ = merge(root_, newnode); ++size_ inside a try block; on a
throw it deletes newnode and rethrows, leaving root_ and size_ fields
untouched (though merge may have mutated nodes inside the tree). -/
def pushOp (cmp : α → α → Option Bool) (q : PQ α) (v : α) : PushOut α :=
  match mergeT cmp q.root (.node v .nil .nil) with
  | .ok t => .ok ⟨t, q.size + 1⟩
  | .thrown t1 _ => .thrown ⟨t1, q.size⟩

/-- Outcome of pop: EmptyContainer carrying the untouched state, ub for
a null root_ dereference with nonzero size_, an escaped comparator
exception with the observable state, or ok. -/
inductive PopOut (α : Type) : Type
| empty : PQ α → PopOut α
| ub : PopOut α
| thrown : PQ α → PopOut α
| ok : PQ α → PopOut α
deriving DecidableEq

/-- Embedding of priority_queue::pop. The C++ body throws
container_is_empty when size_ == 0 before doing anything else;
otherwise tmp = root_; root_ = merge(root_ ls, root_ rs); delete tmp;
--size_. If the merge throws, root_ and size_ are unchanged and the old
root keeps its two (possibly internally mutated) subtrees. -/
def popOp (cmp : α → α → Option Bool) (q : PQ α) : PopOut α :=
  if q.size = 0 then .empty q
  else
    match q.root with
    | .nil => .ub
    | .node a l r =>
      match mergeT cmp l r with
      | .ok t => .ok ⟨t, q.size - 1⟩
      | .thrown t1 t2 => .thrown ⟨.node a t1 t2, q.size⟩

/-- Outcome of top: EmptyContainer, null root_ dereference, or the value
at the root. top never mutates the queue and never calls the
comparator, which is why topOp takes no cmp argument. -/
inductive TopOut (α : Type) : Type
| empty : TopOut α
| ub : TopOut α
| ok : α → TopOut α
deriving DecidableEq

/-- Embedding of priority_queue::top: throws container_is_empty when
size_ == 0, otherwise returns root_ val. -/
def topOp (q : PQ α) : TopOut α :=
  if q.size = 0 then .empty
  else
    match q.root with
    | .nil => .ub
    | .node a _ _ => .ok a

/-- Outcome of the public merge on two distinct queues: ok with both new
states, an escaped comparator exception with both observable states, or
ub for the null dereference in the probe comparison. -/
inductive MergeOut (α : Type) : Type
| ok : PQ α → PQ α → MergeOut α
| thrown : PQ α → PQ α → MergeOut α
| ub : MergeOut α
deriving DecidableEq

/-- Embedding of priority_queue::merge(other) for this != other (the
identity branch of the C++ code returns immediately and is not taken
for distinct queues). The body first evaluates the probe comparison
Compare()(root_ val, other.root_ val), which dereferences both root
pointers with no null check; then root_ = merge(root_, other.root_);
size_ += other.size_; other.root_ = nullptr; other.size_ = 0, all in a
try block whose handler rethrows without restoring anything. -/
def mergeOp (cmp : α → α → Option Bool) (a b : PQ α) : MergeOut α :=
  match a.root, b.root with
  | .nil, _ => .ub
  | _, .nil => .ub
  | .node x _ _, .node y _ _ =>
    match cmp x y with
    | none => .thrown a b
    | some _ =>
      match mergeT cmp a.root b.root with
      | .ok t => .ok ⟨t, a.size + b.size⟩ ⟨.nil, 0⟩
      | .thrown t1 t2 => .thrown ⟨t1, a.size⟩ ⟨t2, b.size⟩

/-- Comparator asymmetry, one half of the strict-weak-ordering contract
the component requires of Compare: a successful true comparison implies
the reversed comparison succeeds with false. -/
def Asym (cmp : α → α → Option Bool) : Prop :=
  ∀ a b, cmp a b = some true → cmp b a = some false

/-- Transitivity of the negative comparator verdicts, the other half of
the strict-weak-ordering contract used here: not-worse is transitive. -/
def NegTrans (cmp : α → α → Option Bool) : Prop :=
  ∀ a b c, cmp a b = some false → cmp b c = some false →
    cmp a c = some false

/-- Heap order maintained by the code: at every node the comparator
applied to (parent value, child value) evaluates to false for each
present child. -/
inductive HeapOrd (cmp : α → α → Option Bool) : Tree α → Prop
| nil : HeapOrd cmp .nil
| node {a : α} {l r : Tree α} :
    HeapOrd cmp l → HeapOrd cmp r →
    (∀ b, rootVal l = some b → cmp a b = some false) →
    (∀ b, rootVal r = some b → cmp a b = some false) →
    HeapOrd cmp (.node a l r)

/-- Queues reachable from the default-constructed empty queue by
successfully completing push, pop and merge operations. -/
inductive Reach (cmp : α → α → Option Bool) : PQ α → Prop
| empty : Reach cmp ⟨.nil, 0⟩
| push {q r : PQ α} (v : α) :
    Reach cmp q → pushOp cmp q v = .ok r → Reach cmp r
| pop {q r : PQ α} :
    Reach cmp q → popOp cmp q = .ok r → Reach cmp r
| mergeL {q1 q2 r1 r2 : PQ α} :
    Reach cmp q1 → Reach cmp q2 → mergeOp cmp q1 q2 = .ok r1 r2 →
    Reach cmp r1
| mergeR {q1 q2 r1 r2 : PQ α} :
    Reach cmp q1 → Reach cmp q2 → mergeOp cmp q1 q2 = .ok r1 r2 →
    Reach cmp r2

/-- Decidable check of claim C5 exactly as worded: at every node the
comparator applied to (child value, parent value) is false for each
present child. -/
def childFirstOk (cmp : α → α → Option Bool) : Tree α → Bool
| .nil => true
| .node a l r =>
  (match rootVal l with
   | none => true
   | some b => decide (cmp b a = some false)) &&
  (match rootVal r with
   | none => true
   | some b => decide (cmp b a = some false)) &&
  childFirstOk cmp l && childFirstOk cmp r

/-- Natural less-than comparator, the std::less default of the C++
class; it never throws. -/
def cmpLt : Nat → Nat → Option Bool := fun a b => some (decide (a < b))

/-- Comparator that throws exactly on the value pair (5, 8) and behaves
as natural less-than everywhere else. -/
def cmpC1 : Nat → Nat → Option Bool :=
  fun a b => if a = 5 ∧ b = 8 then none else some (decide (a < b))

/-- Comparator that throws exactly on the value pair (7, 6) and behaves
as natural less-than everywhere else. -/
def cmpC8 : Nat → Nat → Option Bool :=
  fun a b => if a = 7 ∧ b = 6 then none else some (decide (a < b))

/-- Comparator that throws on every comparison. -/
def cmpNone : Nat → Nat → Option Bool := fun _ _ => none

/-- Embedding of priority_queue::clonenode over trees whose nodes carry
their heap address as a Nat id in the first pair component. The C++
code allocates rt = new heapnode(other val) first, then clones the
left subtree, then the right subtree; allocation is modelled by a
counter handing out fresh addresses in that same preorder. -/
def clonenode : Nat → Tree (Nat × α) → Tree (Nat × α) × Nat
| c, .nil => (.nil, c)
| c, .node iv l r =>
  (.node (c, iv.2) (clonenode (c+1) l).1
     (clonenode (clonenode (c+1) l).2 r).1,
   (clonenode (clonenode (c+1) l).2 r).2)

/-- Values of an id-carrying tree with the addresses erased. -/
def stripIds : Tree (Nat × α) → Tree α
| .nil => .nil
| .node iv l r => .node iv.2 (stripIds l) (stripIds r)

/-- Addresses of the nodes of an id-carrying tree. -/
def idsT : Tree (Nat × α) → List Nat
| .nil => []
| .node iv l r => iv.1 :: (idsT l ++ idsT r)

/-- Embedding of the priority_queue copy constructor: clone the source
tree node by node with fresh addresses from counter c, copy size_. -/
def copyQueue (c : Nat) (q : PQ (Nat × α)) : PQ (Nat × α) :=
  ⟨(clonenode c q.root).1, q.size⟩

/-- Embedding of the priority_queue copy-assignment operator. The C++
code first checks this == &other and returns unchanged in that case
(modelled by the same flag); otherwise it clears the old tree and
installs a fresh clone of the source, copying size_. -/
def assignQueue (same : Bool) (c : Nat) (dst src : PQ (Nat × α)) :
    PQ (Nat × α) :=
  if same then dst else ⟨(clonenode c src.root).1, src.size⟩

/-- Embedding of vector iterator state: the data_ pointer it was built
from and the signed index idx_. -/
structure VIt : Type where
  ptr : Nat
  idx : Int
deriving DecidableEq

/-- Embedding of vector::iterator::operator+(const int): returns a copy
with idx_ increased by n. -/
def itAdd (it : VIt) (n : Int) : VIt := ⟨it.ptr, it.idx + n⟩

/-- Embedding of vector::iterator::operator-(const int) exactly as
written in the source: the body of the copy does idx_ += n, the same
as operator+. -/
def itSub (it : VIt) (n : Int) : VIt := ⟨it.ptr, it.idx + n⟩

/-- A successful private merge yields exactly the multiset union of the
elements of its two arguments. -/
lemma mergeF_ok_elems (cmp : α → α → Option Bool) :
    ∀ n x y t, mergeF cmp n x y = MRes.ok t →
      elems t = elems x + elems y := by
  intro n
  induction n with
  | zero =>
    intro x y t h
    cases x with
    | nil => simp only [mergeF] at h; cases h; simp [elems]
    | node a xl xr =>
      cases y with
      | nil => simp only [mergeF] at h; cases h; simp [elems]
      | node b yl yr => simp only [mergeF] at h; cases h
  | succ m ih =>
    intro x y t h
    cases x with
    | nil => simp only [mergeF] at h; cases h; simp [elems]
    | node a xl xr =>
      cases y with
      | nil => simp only [mergeF] at h; cases h; simp [elems]
      | node b yl yr =>
        simp only [mergeF] at h
        cases hc : cmp a b with
        | none => rw [hc] at h; cases h
        | some bb =>
          rw [hc] at h
          cases bb with
          | false =>
            cases hr : mergeF cmp m xr (Tree.node b yl yr) with
            | thrown u1 u2 => rw [hr] at h; cases h
            | ok z =>
              rw [hr] at h
              cases h
              have hz := ih xr (Tree.node b yl yr) z hr
              simp only [elems] at hz ⊢
              rw [hz]
              simp only [← Multiset.singleton_add]
              abel
          | true =>
            cases hr : mergeF cmp m yr (Tree.node a xl xr) with
            | thrown u1 u2 => rw [hr] at h; cases h
            | ok z =>
              rw [hr] at h
              cases h
              have hz := ih yr (Tree.node a xl xr) z hr
              simp only [elems] at hz ⊢
              rw [hz]
              simp only [← Multiset.singleton_add]
              abel

/-- A thrown private merge leaves the value at each argument root
pointer unchanged: the merge only mutates child links, never values,
and the argument pointers themselves are not reseated. -/
lemma mergeF_thrown_rootVal (cmp : α → α → Option Bool) :
    ∀ n x y t1 t2, mergeF cmp n x y = MRes.thrown t1 t2 →
      rootVal t1 = rootVal x ∧ rootVal t2 = rootVal y := by
  intro n
  induction n with
  | zero =>
    intro x y t1 t2 h
    cases x with
    | nil => simp only [mergeF] at h; cases h
    | node a xl xr =>
      cases y with
      | nil => simp only [mergeF] at h; cases h
      | node b yl yr => simp only [mergeF] at h; cases h; exact ⟨rfl, rfl⟩
  | succ m ih =>
    intro x y t1 t2 h
    cases x with
    | nil => simp only [mergeF] at h; cases h
    | node a xl xr =>
      cases y with
      | nil => simp only [mergeF] at h; cases h
      | node b yl yr =>
        simp only [mergeF] at h
        cases hc : cmp a b with
        | none => rw [hc] at h; cases h; exact ⟨rfl, rfl⟩
        | some bb =>
          rw [hc] at h
          cases bb with
          | false =>
            cases hr : mergeF cmp m xr (Tree.node b yl yr) with
            | ok z => rw [hr] at h; cases h
            | thrown u1 u2 =>
              rw [hr] at h
              cases h
              exact ⟨rfl, (ih _ _ _ _ hr).2⟩
          | true =>
            cases hr : mergeF cmp m yr (Tree.node a xl xr) with
            | ok z => rw [hr] at h; cases h
            | thrown u1 u2 =>
              rw [hr] at h
              cases h
              exact ⟨(ih _ _ _ _ hr).2, rfl⟩

/-- The root of a successful private merge is the root of one of the
two arguments. -/
lemma mergeF_ok_rootVal (cmp : α → α → Option Bool) :
    ∀ n x y t, mergeF cmp n x y = MRes.ok t →
      rootVal t = rootVal x ∨ rootVal t = rootVal y := by
  intro n x y t h
  cases n with
  | zero =>
    cases x with
    | nil => simp only [mergeF] at h; cases h; exact Or.inr rfl
    | node a xl xr =>
      cases y with
      | nil => simp only [mergeF] at h; cases h; exact Or.inl rfl
      | node b yl yr => simp only [mergeF] at h; cases h
  | succ m =>
    cases x with
    | nil => simp only [mergeF] at h; cases h; exact Or.inr rfl
    | node a xl xr =>
      cases y with
      | nil => simp only [mergeF] at h; cases h; exact Or.inl rfl
      | node b yl yr =>
        simp only [mergeF] at h
        cases hc : cmp a b with
        | none => rw [hc] at h; cases h
        | some bb =>
          rw [hc] at h
          cases bb with
          | false =>
            cases hr : mergeF cmp m xr (Tree.node b yl yr) with
            | ok z => rw [hr] at h; cases h; exact Or.inl rfl
            | thrown u1 u2 => rw [hr] at h; cases h
          | true =>
            cases hr : mergeF cmp m yr (Tree.node a xl xr) with
            | ok z => rw [hr] at h; cases h; exact Or.inr rfl
            | thrown u1 u2 => rw [hr] at h; cases h

/-- An isolated node is heap ordered. -/
lemma heapOrd_singleton (cmp : α → α → Option Bool) (v : α) :
    HeapOrd cmp (Tree.node v .nil .nil) := by
  refine HeapOrd.node HeapOrd.nil HeapOrd.nil ?l ?r
  case l => intro b hb; simp [rootVal] at hb
  case r => intro b hb; simp [rootVal] at hb

/-- A successful private merge of two heap-ordered trees is heap
ordered, provided the comparator is asymmetric. -/
lemma mergeF_ok_heapOrd (cmp : α → α → Option Bool) (hA : Asym cmp) :
    ∀ n x y t, HeapOrd cmp x → HeapOrd cmp y →
      mergeF cmp n x y = MRes.ok t → HeapOrd cmp t := by
  intro n
  induction n with
  | zero =>
    intro x y t hx hy h
    cases x with
    | nil => simp only [mergeF] at h; cases h; exact hy
    | node a xl xr =>
      cases y with
      | nil => simp only [mergeF] at h; cases h; exact hx
      | node b yl yr => simp only [mergeF] at h; cases h
  | succ m ih =>
    intro x y t hx hy h
    cases x with
    | nil => simp only [mergeF] at h; cases h; exact hy
    | node a xl xr =>
      cases y with
      | nil => simp only [mergeF] at h; cases h; exact hx
      | node b yl yr =>
        simp only [mergeF] at h
        cases hx with
        | node hxl hxr hexl hexr =>
        cases hy with
        | node hyl hyr heyl heyr =>
        cases hc : cmp a b with
        | none => rw [hc] at h; cases h
        | some bb =>
          rw [hc] at h
          cases bb with
          | false =>
            cases hr : mergeF cmp m xr (Tree.node b yl yr) with
            | thrown u1 u2 => rw [hr] at h; cases h
            | ok z =>
              rw [hr] at h
              cases h
              refine HeapOrd.node
                (ih _ _ _ hxr (HeapOrd.node hyl hyr heyl heyr) hr)
                hxl ?ez ?exl
              case exl => exact hexl
              case ez =>
                intro c hcr
                rcases mergeF_ok_rootVal cmp m _ _ _ hr with hv | hv
                · exact hexr c (hv ▸ hcr)
                · rw [hv] at hcr
                  simp only [rootVal, Option.some.injEq] at hcr
                  rw [← hcr]
                  exact hc
          | true =>
            cases hr : mergeF cmp m yr (Tree.node a xl xr) with
            | thrown u1 u2 => rw [hr] at h; cases h
            | ok z =>
              rw [hr] at h
              cases h
              refine HeapOrd.node
                (ih _ _ _ hyr (HeapOrd.node hxl hxr hexl hexr) hr)
                hyl ?ez2 ?eyl
              case eyl => exact heyl
              case ez2 =>
                intro c hcr
                rcases mergeF_ok_rootVal cmp m _ _ _ hr with hv | hv
                · exact heyr c (hv ▸ hcr)
                · rw [hv] at hcr
                  simp only [rootVal, Option.some.injEq] at hcr
                  rw [← hcr]
                  exact hA a b hc

/-- Every queue reachable through successfully completing operations is
heap ordered, provided the comparator is asymmetric. -/
lemma reach_heapOrd {cmp : α → α → Option Bool} (hA : Asym cmp)
    {q : PQ α} (h : Reach cmp q) : HeapOrd cmp q.root := by
  induction h with
  | empty => exact HeapOrd.nil
  | push v hq hop ih =>
    rename_i q1 r1
    rw [pushOp.eq_def] at hop
    cases hm : mergeT cmp q1.root (Tree.node v .nil .nil) with
    | thrown t1 t2 => rw [hm] at hop; cases hop
    | ok t =>
      rw [hm] at hop
      cases hop
      exact mergeF_ok_heapOrd cmp hA _ _ _ _ ih
        (heapOrd_singleton cmp v) hm
  | pop hq hop ih =>
    rename_i q1 r1
    rw [popOp.eq_def] at hop
    by_cases hs : q1.size = 0
    · rw [if_pos hs] at hop; cases hop
    · rw [if_neg hs] at hop
      cases hroot : q1.root with
      | nil => rw [hroot] at hop; cases hop
      | node a tl tr =>
        rw [hroot] at hop
        simp only [] at hop
        cases hm : mergeT cmp tl tr with
        | thrown t1 t2 => rw [hm] at hop; cases hop
        | ok t =>
          rw [hm] at hop
          cases hop
          rw [hroot] at ih
          cases ih with
          | node hl hr hel her =>
            exact mergeF_ok_heapOrd cmp hA _ _ _ _ hl hr hm
  | mergeL h1 h2 hop ih1 ih2 =>
    rename_i q1 q2 r1 r2
    rw [mergeOp.eq_def] at hop
    cases h1root : q1.root with
    | nil =>
      cases h2root : q2.root with
      | nil => rw [h1root, h2root] at hop; cases hop
      | node y yl yr => rw [h1root, h2root] at hop; cases hop
    | node x xl xr =>
      cases h2root : q2.root with
      | nil => rw [h1root, h2root] at hop; cases hop
      | node y yl yr =>
        rw [h1root, h2root] at hop
        simp only [] at hop
        cases hc : cmp x y with
        | none => rw [hc] at hop; cases hop
        | some bb =>
          rw [hc] at hop
          cases hm : mergeT cmp (Tree.node x xl xr) (Tree.node y yl yr) with
          | thrown t1 t2 => rw [hm] at hop; cases hop
          | ok t =>
            rw [hm] at hop
            cases hop
            rw [h1root] at ih1
            rw [h2root] at ih2
            exact mergeF_ok_heapOrd cmp hA _ _ _ _ ih1 ih2 hm
  | mergeR h1 h2 hop ih1 ih2 =>
    rename_i q1 q2 r1 r2
    rw [mergeOp.eq_def] at hop
    cases h1root : q1.root with
    | nil =>
      cases h2root : q2.root with
      | nil => rw [h1root, h2root] at hop; cases hop
      | node y yl yr => rw [h1root, h2root] at hop; cases hop
    | node x xl xr =>
      cases h2root : q2.root with
      | nil => rw [h1root, h2root] at hop; cases hop
      | node y yl yr =>
        rw [h1root, h2root] at hop
        simp only [] at hop
        cases hc : cmp x y with
        | none => rw [hc] at hop; cases hop
        | some bb =>
          rw [hc] at hop
          cases hm : mergeT cmp (Tree.node x xl xr) (Tree.node y yl yr) with
          | thrown t1 t2 => rw [hm] at hop; cases hop
          | ok t =>
            rw [hm] at hop
            cases hop
            exact HeapOrd.nil

/-- In a heap-ordered tree, a value e that is not worse than the root is
not worse than any element of the tree, if not-worse is transitive. -/
lemma heapOrd_dominates {cmp : α → α → Option Bool} (hT : NegTrans cmp) :
    ∀ t : Tree α, HeapOrd cmp t → ∀ e : α,
      (∀ b, rootVal t = some b → cmp e b = some false) →
      ∀ x ∈ elems t, cmp e x = some false := by
  intro t
  induction t with
  | nil => intro ht e he x hx; simp [elems] at hx
  | node c l r ihl ihr =>
    intro ht e he x hx
    cases ht with
    | node hl hr hel her =>
      have hec : cmp e c = some false := he c rfl
      simp only [elems, Multiset.mem_cons, Multiset.mem_add] at hx
      rcases hx with rfl | hx | hx
      · exact hec
      · exact ihl hl e (fun b hb => hT e c b hec (hel b hb)) x hx
      · exact ihr hr e (fun b hb => hT e c b hec (her b hb)) x hx

/-- topOp only looks at the size field and the root value, so two queues
agreeing on those agree on top. -/
lemma topOp_congr {t1 t2 : Tree α} (h : rootVal t1 = rootVal t2)
    (s : Nat) : topOp (⟨t1, s⟩ : PQ α) = topOp ⟨t2, s⟩ := by
  cases t1 with
  | nil =>
    cases t2 with
    | nil => rfl
    | node b l r => simp [rootVal] at h
  | node a l r =>
    cases t2 with
    | nil => simp [rootVal] at h
    | node b l2 r2 =>
      simp only [rootVal, Option.some.injEq] at h
      subst h
      rfl

/-- Claim C2: if the ordering predicate throws during push, then after
the exception propagates the size field equals its pre-call value and
top returns exactly what it returned before the call (in particular the
same element when the queue was nonempty). -/
theorem c2_push_atomic_size_top {cmp : α → α → Option Bool}
    {q q2 : PQ α} {v : α} (h : pushOp cmp q v = PushOut.thrown q2) :
    q2.size = q.size ∧ topOp q2 = topOp q := by
  rw [pushOp.eq_def] at h
  cases hm : mergeT cmp q.root (Tree.node v .nil .nil) with
  | ok t => rw [hm] at h; cases h
  | thrown t1 t2 =>
    rw [hm] at h
    cases h
    refine ⟨rfl, ?top⟩
    case top =>
      have hv := (mergeF_thrown_rootVal cmp _ _ _ _ _ hm).1
      exact topOp_congr hv q.size

/-- Claim C2 witness: a concrete throwing push, on the singleton queue
holding 1 with an always-throwing comparator, preserves size and top. -/
theorem c2_push_atomic_witness :
    pushOp cmpNone ⟨Tree.node 1 .nil .nil, 1⟩ 2
        = PushOut.thrown ⟨Tree.node 1 .nil .nil, 1⟩ ∧
      (⟨Tree.node 1 .nil .nil, 1⟩ : PQ Nat).size = 1 ∧
      topOp (⟨Tree.node 1 .nil .nil, 1⟩ : PQ Nat)
        = topOp (⟨Tree.node 1 .nil .nil, 1⟩ : PQ Nat) :=
  ⟨by decide,
   (@c2_push_atomic_size_top Nat cmpNone ⟨Tree.node 1 .nil .nil, 1⟩
      ⟨Tree.node 1 .nil .nil, 1⟩ 2 (by decide)).1,
   (@c2_push_atomic_size_top Nat cmpNone ⟨Tree.node 1 .nil .nil, 1⟩
      ⟨Tree.node 1 .nil .nil, 1⟩ 2 (by decide)).2⟩

/-- Claim C4: whenever the public merge of two distinct queues returns
successfully, the source queue is drained (null root, size 0), the
destination size is the sum of the two sizes, and the destination holds
exactly the multiset union of the two element multisets. -/
theorem c4_merge_drains_source {cmp : α → α → Option Bool}
    {a b a2 b2 : PQ α} (h : mergeOp cmp a b = MergeOut.ok a2 b2) :
    b2.root = Tree.nil ∧ b2.size = 0 ∧ a2.size = a.size + b.size ∧
      elems a2.root = elems a.root + elems b.root := by
  rw [mergeOp.eq_def] at h
  cases h1root : a.root with
  | nil =>
    cases h2root : b.root with
    | nil => rw [h1root, h2root] at h; cases h
    | node y yl yr => rw [h1root, h2root] at h; cases h
  | node x xl xr =>
    cases h2root : b.root with
    | nil => rw [h1root, h2root] at h; cases h
    | node y yl yr =>
      rw [h1root, h2root] at h
      simp only [] at h
      cases hc : cmp x y with
      | none => rw [hc] at h; cases h
      | some bb =>
        rw [hc] at h
        cases hm : mergeT cmp (Tree.node x xl xr) (Tree.node y yl yr) with
        | thrown t1 t2 => rw [hm] at h; cases h
        | ok t =>
          rw [hm] at h
          cases h
          exact ⟨rfl, rfl, rfl, mergeF_ok_elems cmp _ _ _ _ hm⟩

/-- Claim C4 witness: merging the singleton queue holding 10 with the
singleton queue holding 8 succeeds and drains the source. -/
theorem c4_merge_drains_witness :
    mergeOp cmpLt ⟨Tree.node 10 .nil .nil, 1⟩ ⟨Tree.node 8 .nil .nil, 1⟩
        = MergeOut.ok ⟨Tree.node 10 (Tree.node 8 .nil .nil) .nil, 2⟩
            ⟨Tree.nil, 0⟩ ∧
      (Tree.nil : Tree Nat) = Tree.nil ∧ (0 : Nat) = 0 ∧ (2 : Nat) = 1 + 1 ∧
      elems (Tree.node 10 (Tree.node 8 .nil .nil) .nil : Tree Nat)
        = elems (Tree.node 10 .nil .nil : Tree Nat)
          + elems (Tree.node 8 .nil .nil : Tree Nat) :=
  ⟨by decide,
    (@c4_merge_drains_source Nat cmpLt ⟨Tree.node 10 .nil .nil, 1⟩
      ⟨Tree.node 8 .nil .nil, 1⟩
      ⟨Tree.node 10 (Tree.node 8 .nil .nil) .nil, 2⟩
      ⟨Tree.nil, 0⟩ (by decide)).1,
    (@c4_merge_drains_source Nat cmpLt ⟨Tree.node 10 .nil .nil, 1⟩
      ⟨Tree.node 8 .nil .nil, 1⟩
      ⟨Tree.node 10 (Tree.node 8 .nil .nil) .nil, 2⟩
      ⟨Tree.nil, 0⟩ (by decide)).2.1,
    (@c4_merge_drains_source Nat cmpLt ⟨Tree.node 10 .nil .nil, 1⟩
      ⟨Tree.node 8 .nil .nil, 1⟩
      ⟨Tree.node 10 (Tree.node 8 .nil .nil) .nil, 2⟩
      ⟨Tree.nil, 0⟩ (by decide)).2.2.1,
    (@c4_merge_drains_source Nat cmpLt ⟨Tree.node 10 .nil .nil, 1⟩
      ⟨Tree.node 8 .nil .nil, 1⟩
      ⟨Tree.node 10 (Tree.node 8 .nil .nil) .nil, 2⟩
      ⟨Tree.nil, 0⟩ (by decide)).2.2.2⟩

/-- Claim C7: top and pop raise EmptyContainer exactly when the size
field is 0, this check precedes all other work, a raising call returns
the state unchanged, and top on a nonempty queue just reads the root
value: it performs no mutation and never calls the comparator (topOp
does not even receive cmp). -/
theorem c7_empty_container (cmp : α → α → Option Bool) (q : PQ α) :
    (topOp q = TopOut.empty ↔ q.size = 0) ∧
    (∀ r, popOp cmp q = PopOut.empty r ↔ (r = q ∧ q.size = 0)) ∧
    (∀ a l r, q.root = Tree.node a l r → q.size ≠ 0 →
      topOp q = TopOut.ok a) := by
  refine ⟨?t1, ?t2, ?t3⟩
  case t1 =>
    rw [topOp.eq_def]
    by_cases hs : q.size = 0
    · simp [hs]
    · rw [if_neg hs]
      constructor
      · intro h
        cases hroot : q.root with
        | nil => rw [hroot] at h; cases h
        | node a l r => rw [hroot] at h; cases h
      · intro h; exact absurd h hs
  case t2 =>
    intro r
    rw [popOp.eq_def]
    by_cases hs : q.size = 0
    · rw [if_pos hs]
      constructor
      · intro h; cases h; exact ⟨rfl, hs⟩
      · rintro ⟨h1, h2⟩; subst h1; rfl
    · rw [if_neg hs]
      constructor
      · intro h
        cases hroot : q.root with
        | nil => rw [hroot] at h; cases h
        | node a tl tr =>
          rw [hroot] at h
          simp only [] at h
          cases hm : mergeT cmp tl tr with
          | ok t => rw [hm] at h; cases h
          | thrown t1 t2 => rw [hm] at h; cases h
      · rintro ⟨h1, h2⟩; exact absurd h2 hs
  case t3 =>
    intro a l r hroot hs
    rw [topOp.eq_def, if_neg hs, hroot]

/-- Claim C7 witness: on the singleton queue holding 5, top does not
raise and returns the root value 5. -/
theorem c7_empty_container_witness :
    topOp (⟨Tree.node 5 .nil .nil, 1⟩ : PQ Nat) = TopOut.ok 5 :=
  (c7_empty_container cmpLt ⟨Tree.node 5 .nil .nil, 1⟩).2.2
    5 .nil .nil rfl (by decide)

/-- The natural less-than comparator is asymmetric. -/
lemma asym_cmpLt : Asym cmpLt := by
  intro a b h
  simp only [cmpLt, Option.some.injEq, decide_eq_true_eq] at h
  simp only [cmpLt, Option.some.injEq, decide_eq_false_iff_not]
  omega

/-- Negative verdicts of the natural less-than comparator compose. -/
lemma negtrans_cmpLt : NegTrans cmpLt := by
  intro a b c h1 h2
  simp only [cmpLt, Option.some.injEq, decide_eq_false_iff_not] at h1 h2 ⊢
  omega

/-- The queue built by pushing 1 then 2 under the natural less-than
comparator is a reachable state. -/
lemma reach_push_one_two :
    Reach cmpLt ⟨Tree.node 2 (Tree.node 1 .nil .nil) .nil, 2⟩ := by
  have r1 : Reach cmpLt ⟨Tree.node 1 .nil .nil, 1⟩ :=
    Reach.push 1 Reach.empty (by decide)
  exact Reach.push 2 r1 (by decide)

/-- Claim C1 (bug evidence): with a comparator that throws only on the
value pair (5, 8), queue A built by pushing 10, 5, 7 and queue B built
by pushing 8 are reachable states; during A.merge(B) the probe
comparison (10 against 8) succeeds, the recursive merge then throws on
(5, 8) one level down, the exception propagates, and A is observably
corrupted rather than restored: its right child now repeats the left
child 7, the element 5 is no longer reachable, and the detached node
holding 5 is leaked. B is returned unchanged here, but A alone breaks
the claimed strong guarantee. -/
theorem c1_merge_throw_not_restored :
    pushOp cmpC1 ⟨Tree.nil, 0⟩ 10
      = PushOut.ok ⟨Tree.node 10 .nil .nil, 1⟩ ∧
    pushOp cmpC1 ⟨Tree.node 10 .nil .nil, 1⟩ 5
      = PushOut.ok ⟨Tree.node 10 (Tree.node 5 .nil .nil) .nil, 2⟩ ∧
    pushOp cmpC1 ⟨Tree.node 10 (Tree.node 5 .nil .nil) .nil, 2⟩ 7
      = PushOut.ok
          ⟨Tree.node 10 (Tree.node 7 .nil .nil) (Tree.node 5 .nil .nil),
           3⟩ ∧
    pushOp cmpC1 ⟨Tree.nil, 0⟩ 8
      = PushOut.ok ⟨Tree.node 8 .nil .nil, 1⟩ ∧
    mergeOp cmpC1
        ⟨Tree.node 10 (Tree.node 7 .nil .nil) (Tree.node 5 .nil .nil), 3⟩
        ⟨Tree.node 8 .nil .nil, 1⟩
      = MergeOut.thrown
          ⟨Tree.node 10 (Tree.node 7 .nil .nil) (Tree.node 7 .nil .nil),
           3⟩
          ⟨Tree.node 8 .nil .nil, 1⟩ ∧
    (Tree.node 10 (Tree.node 7 .nil .nil) (Tree.node 7 .nil .nil)
      ≠ Tree.node 10 (Tree.node 7 .nil .nil) (Tree.node 5 .nil .nil)) ∧
    elems
        (Tree.node 10 (Tree.node 7 .nil .nil) (Tree.node 7 .nil .nil)
          : Tree Nat)
      ≠ elems
          (Tree.node 10 (Tree.node 7 .nil .nil) (Tree.node 5 .nil .nil)) ∧
    (5 : Nat) ∉
      elems
        (Tree.node 10 (Tree.node 7 .nil .nil) (Tree.node 7 .nil .nil)
          : Tree Nat) := by
  decide

/-- Claim C3 (bug evidence): merging with an empty queue on either side
hits the probe comparison, which dereferences the null root pointer of
the empty operand before any null check runs, so the public merge
reaches undefined behavior instead of completing without a comparison.
The private tree merge itself does handle an absent operand and returns
the other tree unchanged without comparing; the defect is only the
probe in the public method. -/
theorem c3_merge_empty_probe_ub :
    mergeOp cmpLt ⟨Tree.node 5 .nil .nil, 1⟩ ⟨Tree.nil, 0⟩
      = MergeOut.ub ∧
    mergeOp cmpLt ⟨Tree.nil, 0⟩ ⟨Tree.node 5 .nil .nil, 1⟩
      = MergeOut.ub ∧
    mergeOp cmpLt (⟨Tree.nil, 0⟩ : PQ Nat) ⟨Tree.nil, 0⟩
      = MergeOut.ub ∧
    mergeT cmpLt (Tree.node 5 .nil .nil) Tree.nil
      = MRes.ok (Tree.node 5 .nil .nil) ∧
    mergeT cmpLt Tree.nil (Tree.node 5 .nil .nil)
      = MRes.ok (Tree.node 5 .nil .nil) := by
  decide

/-- Claim C8 (bug evidence): with a comparator that throws only on the
value pair (7, 6), the queue built by pushing 10, 5, 7, 3 is reachable
with size field 4; a subsequent push of 6 throws one level down, and
after the exception the size field is still 4 while the tree observable
from the root has 5 nodes (the two-node left subtree is now also in
the right slot and the old right child 7 is detached and leaked), so
the size field no longer equals the number of nodes reachable from the
root. -/
theorem c8_size_mismatch_after_throw :
    pushOp cmpC8 ⟨Tree.nil, 0⟩ 10
      = PushOut.ok ⟨Tree.node 10 .nil .nil, 1⟩ ∧
    pushOp cmpC8 ⟨Tree.node 10 .nil .nil, 1⟩ 5
      = PushOut.ok ⟨Tree.node 10 (Tree.node 5 .nil .nil) .nil, 2⟩ ∧
    pushOp cmpC8 ⟨Tree.node 10 (Tree.node 5 .nil .nil) .nil, 2⟩ 7
      = PushOut.ok
          ⟨Tree.node 10 (Tree.node 7 .nil .nil) (Tree.node 5 .nil .nil),
           3⟩ ∧
    pushOp cmpC8
        ⟨Tree.node 10 (Tree.node 7 .nil .nil) (Tree.node 5 .nil .nil), 3⟩
        3
      = PushOut.ok
          ⟨Tree.node 10 (Tree.node 5 (Tree.node 3 .nil .nil) .nil)
             (Tree.node 7 .nil .nil), 4⟩ ∧
    pushOp cmpC8
        ⟨Tree.node 10 (Tree.node 5 (Tree.node 3 .nil .nil) .nil)
           (Tree.node 7 .nil .nil), 4⟩
        6
      = PushOut.thrown
          ⟨Tree.node 10 (Tree.node 5 (Tree.node 3 .nil .nil) .nil)
             (Tree.node 5 (Tree.node 3 .nil .nil) .nil), 4⟩ ∧
    tsize
        (Tree.node 10 (Tree.node 5 (Tree.node 3 .nil .nil) .nil)
           (Tree.node 5 (Tree.node 3 .nil .nil) .nil) : Tree Nat)
      = 5 ∧
    (5 : Nat) ≠ 4 := by
  decide

/-- Claim C10 (bug evidence): vector iterator operator-(int) adds n to
the index exactly like operator+, so (it + n) - n lands 2n past it
instead of back at it; concretely ((begin + 1) - 1) sits at index 2,
not index 0. The same body appears in the const_iterator overload. -/
theorem c10_iterator_sub_adds :
    (∀ (it : VIt) (n : Int), itSub it n = itAdd it n) ∧
    itSub (itAdd ⟨0, 0⟩ 1) 1 = (⟨0, 2⟩ : VIt) ∧
    (⟨0, 2⟩ : VIt) ≠ ⟨0, 0⟩ :=
  ⟨fun _ _ => rfl, by decide, by decide⟩

/-- Claim C5 counterexample: under the default less-than ordering,
pushing 1 then 2 yields the reachable queue whose root 2 has child 1,
and the ordering predicate applied to (child value, parent value), as
the claim words it, is true there rather than false: the claim has the
argument order backwards. -/
theorem c5_childfirst_cex :
    pushOp cmpLt ⟨Tree.nil, 0⟩ 1
      = PushOut.ok ⟨Tree.node 1 .nil .nil, 1⟩ ∧
    pushOp cmpLt ⟨Tree.node 1 .nil .nil, 1⟩ 2
      = PushOut.ok ⟨Tree.node 2 (Tree.node 1 .nil .nil) .nil, 2⟩ ∧
    childFirstOk cmpLt (Tree.node 2 (Tree.node 1 .nil .nil) .nil)
      = false ∧
    cmpLt 1 2 = some true := by
  decide

/-- Claim C5 as amended: in every queue reachable by successfully
completing operations, for every node N with a present child C the
ordering predicate applied to (N value, C value) — parent first — is
false, provided the predicate is asymmetric as a strict weak ordering
requires. -/
theorem c5_heap_order_amended {cmp : α → α → Option Bool}
    (hA : Asym cmp) {q : PQ α} (hq : Reach cmp q) :
    HeapOrd cmp q.root :=
  reach_heapOrd hA hq

/-- Claim C5 amended witness: the concrete reachable queue with root 2
and child 1 under less-than is heap ordered in the parent-first sense. -/
theorem c5_heap_order_witness :
    HeapOrd cmpLt (Tree.node 2 (Tree.node 1 .nil .nil) .nil) :=
  c5_heap_order_amended asym_cmpLt reach_push_one_two

/-- Claim C6: after any sequence of successfully completing operations,
top on a nonempty queue returns an element e such that the ordering
predicate applied to (e, x) is false for every other element x of the
queue (one occurrence of e itself removed), assuming the predicate has
the asymmetry and negative transitivity of a strict weak ordering. -/
theorem c6_top_not_worse [DecidableEq α] {cmp : α → α → Option Bool}
    (hA : Asym cmp) (hT : NegTrans cmp) {q : PQ α} (hq : Reach cmp q)
    {e : α} (htop : topOp q = TopOut.ok e) :
    ∀ x ∈ (elems q.root).erase e, cmp e x = some false := by
  rw [topOp.eq_def] at htop
  by_cases hs : q.size = 0
  · rw [if_pos hs] at htop; cases htop
  · rw [if_neg hs] at htop
    cases hroot : q.root with
    | nil => rw [hroot] at htop; cases htop
    | node a l r =>
      rw [hroot] at htop
      simp only [] at htop
      cases htop
      have hho := reach_heapOrd hA hq
      rw [hroot] at hho
      cases hho with
      | node hl hr hel her =>
        intro x hx
        simp only [elems, Multiset.erase_cons_head, Multiset.mem_add]
          at hx
        rcases hx with hx | hx
        · exact heapOrd_dominates hT l hl e hel x hx
        · exact heapOrd_dominates hT r hr e her x hx

/-- Claim C6 witness: in the reachable queue built by pushing 1 then 2
under less-than, top returns 2 and 2 is not worse than the remaining
element 1. -/
theorem c6_top_not_worse_witness : cmpLt 2 1 = some false :=
  c6_top_not_worse asym_cmpLt negtrans_cmpLt reach_push_one_two
    (by decide) 1 (by decide)

/-- Cloning from counter c leaves the counter at least at c. -/
lemma clonenode_counter :
    ∀ (t : Tree (Nat × α)) (c : Nat), c ≤ (clonenode c t).2 := by
  intro t
  induction t with
  | nil => intro c; exact Nat.le_refl c
  | node iv l r ihl ihr =>
    intro c
    simp only [clonenode]
    have h1 : c + 1 ≤ (clonenode (c+1) l).2 := ihl (c+1)
    have h2 : (clonenode (c+1) l).2
        ≤ (clonenode (clonenode (c+1) l).2 r).2 := ihr _
    omega

/-- Every address of a clone made from counter c is at least c: clones
consist of freshly allocated nodes only. -/
lemma clonenode_ids_lb :
    ∀ (t : Tree (Nat × α)) (c j : Nat),
      j ∈ idsT (clonenode c t).1 → c ≤ j := by
  intro t
  induction t with
  | nil => intro c j hj; simp [clonenode, idsT] at hj
  | node iv l r ihl ihr =>
    intro c j hj
    simp only [clonenode, idsT, List.mem_cons, List.mem_append] at hj
    rcases hj with rfl | hj | hj
    · exact Nat.le_refl j
    · have := ihl (c+1) j hj
      omega
    · have h1 := ihr (clonenode (c+1) l).2 j hj
      have h2 : c + 1 ≤ (clonenode (c+1) l).2 := clonenode_counter l (c+1)
      omega

/-- A clone carries exactly the values and shape of its source. -/
lemma clonenode_strip :
    ∀ (t : Tree (Nat × α)) (c : Nat),
      stripIds (clonenode c t).1 = stripIds t := by
  intro t
  induction t with
  | nil => intro c; rfl
  | node iv l r ihl ihr =>
    intro c
    simp only [clonenode, stripIds, ihl, ihr]

/-- Claim C9: copy construction deep-clones every node, so when the
clone is made from fresh addresses (counter above every source
address) the copy observes the same values, shape and size as the
source while sharing no node with it; and self-assignment short
circuits to a no-op. Disjointness of the address sets is what makes
later mutations of either queue invisible to the other. -/
theorem c9_clone_deep_independent {q : PQ (Nat × α)} {c : Nat}
    (h : ∀ i ∈ idsT q.root, i < c) :
    stripIds (copyQueue c q).root = stripIds q.root ∧
    (copyQueue c q).size = q.size ∧
    (∀ j ∈ idsT (copyQueue c q).root, j ∉ idsT q.root) ∧
    assignQueue true c q q = q := by
  refine ⟨clonenode_strip q.root c, rfl, ?disj, rfl⟩
  case disj =>
    intro j hj hjq
    have h1 : c ≤ j := clonenode_ids_lb q.root c j hj
    have h2 : j < c := h j hjq
    omega

/-- Concrete queue for the C9 witness: nodes at addresses 0 and 1
holding values 10 and 7. -/
def qC9 : PQ (Nat × Nat) :=
  ⟨Tree.node (0, 10) (Tree.node (1, 7) .nil .nil) .nil, 2⟩

/-- Claim C9 witness: cloning qC9 from fresh counter 5 preserves the
stripped tree and the size, and the clone does not contain the source
root address 0 (its addresses start at 5). -/
theorem c9_clone_witness :
    stripIds (copyQueue 5 qC9).root = stripIds qC9.root ∧
    (copyQueue 5 qC9).size = qC9.size ∧
    (5 : Nat) ∉ idsT qC9.root :=
  ⟨(@c9_clone_deep_independent Nat qC9 5 (by decide)).1,
   (@c9_clone_deep_independent Nat qC9 5 (by decide)).2.1,
   (@c9_clone_deep_independent Nat qC9 5 (by decide)).2.2.1 5 (by decide)⟩

end STLite
